import Mathlib

/-!
Verification of the `DiffusionKernel` class from `DiffusionKernelTutorial.ipynb`.

The notebook defines a gpytorch kernel over discrete categorical spaces:

```
class DiffusionKernel(gpytorch.kernels.Kernel):
    has_lengthscale = True
    def __init__(self, categories, **kwargs):
        if categories is None:
            raise RunTimeError("...")
        super().__init__(**kwargs)
        self.cats = categories

    def forward(self, x1, x2, diag=False, last_dim_is_batch=False, **params):
        ...
        if diag:
            res = 1.
            for i in range(x1.shape[-1]):
                res *= ((1 - torch.exp(-self.lengthscale[..., i] * self.cats[i]))
                        /(1 + (self.cats[i] - 1)
                          * torch.exp(-self.lengthscale[..., i]*self.cats[i]))
                       ).unsqueeze(-1) ** ((x1[..., i] != x2[..., i])[:, 0, ...])
            return res
        res = 1.
        for i in range(x1.shape[-1]):
            res *= ((1 - torch.exp(-self.lengthscale[..., i] * self.cats[i]))
                    /(1 + (self.cats[i] - 1)
                      * torch.exp(-self.lengthscale[..., i]*self.cats[i]))
                   ).unsqueeze(-1) ** ((x1[..., i].unsqueeze(-2)[..., None]
                                        != x2[..., i].unsqueeze(-2))[0, ...])
        return res
```

The file contains two copies of the notebook; the second differs only in the
loop bound (`x1.shape[~1]` instead of `x1.shape[-1]`).

We shallow-embed the kernel for the tensor ranks the claims exercise.
Categorical points are lists of naturals, the lengthscale is a list of reals
(`self.lengthscale[..., i]` is its `i`-th scalar entry), `self.cats` is a list
of naturals.  Tensor values are modelled by `ℝ`.  Fallible indexing
(`IndexError` on `self.cats[i]` / `self.lengthscale[..., i]` when `i` is out of
range) is modelled with `Option`.
-/

noncomputable section

/-- The per-dimension factor the loop body computes:
`(1 - exp(-lengthscale[..., i] * cats[i])) / (1 + (cats[i] - 1) * exp(-lengthscale[..., i] * cats[i]))`
for one scalar lengthscale `l` and category count `c`. -/
def baseFactor (c : ℕ) (l : ℝ) : ℝ :=
  (1 - Real.exp (-l * c)) / (1 + ((c : ℝ) - 1) * Real.exp (-l * c))

/-- The boolean tensor `a != b` used as an exponent: `1` where the entries
differ, `0` where they agree (float promotion of the bool). -/
def neInd (a b : ℕ) : ℕ := if a = b then 0 else 1

/-- `x.shape[-1]` for a rank-2 tensor modelled as a list of rows: the length of
a row.  (A rectangular tensor has all rows of equal length; an empty batch is
modelled with trailing dimension 0.) -/
def dlast (x : List (List ℕ)) : ℕ := (x.headD []).length

/-- `x.shape[-1]` for a rank-3 tensor modelled as a list of rank-2 slices. -/
def dlast3 (x : List (List (List ℕ))) : ℕ := ((x.headD []).headD []).length

/-- The list of per-dimension factors `base_i` produced by the loop
`for i in range(d)` when every index is in range: entry `i` is
`baseFactor cats[i] lengthscale[i]`. -/
def basesList (cats : List ℕ) (ls : List ℝ) (d : ℕ) : List ℝ :=
  (List.range d).map fun i => baseFactor (cats.getD i 0) (ls.getD i 0)

/-- The loop `for i in range(d)` reads `self.cats[i]` and
`self.lengthscale[..., i]` at every iteration; it raises `IndexError` as soon
as `i` reaches the length of either sequence, i.e. exactly when `d` exceeds one
of the two lengths.  Otherwise it yields the per-dimension factors. -/
def basesOf (cats : List ℕ) (ls : List ℝ) (d : ℕ) : Option (List ℝ) :=
  if d ≤ cats.length ∧ d ≤ ls.length then some (basesList cats ls d) else none

/-- One entry of the accumulated product `res`: starting from `1.`, iteration
`i` multiplies in `bs[i] ** (a[i] != b[i])`.  The number of iterations is the
length of `bs` (which `basesOf` makes equal to the loop bound). -/
def entryK (bs : List ℝ) (a b : List ℕ) : ℝ :=
  ((List.range bs.length).map fun i => bs.getD i 1 ^ neInd (a.getD i 0) (b.getD i 0)).prod

/-- The `diag=False` branch of `forward` for rank-2 inputs `x1 : (n1, d1)`,
`x2 : (n2, d2)` (first notebook copy, loop bound `x1.shape[-1]`).

For such inputs the indicator
`(x1[..., i].unsqueeze(-2)[..., None] != x2[..., i].unsqueeze(-2))[0, ...]`
is the `(n1, n2)` matrix of pairwise inequalities of column `i`, and the
scalar factor broadcasts over it, so entry `(j, k)` of the result is
`∏ i < d1, base_i ^ (x1[j][i] != x2[k][i])`.

`x2[..., i]` raises `IndexError` when `d2 < d1` (guarded below; an empty list
`x2` is treated as compatible, since the list model loses the trailing
dimension of a `(0, d2)` tensor, which computes fine whenever `d2 ≥ d1`);
`self.cats[i]` and `self.lengthscale[..., i]` raise when `d1` exceeds their
lengths (guarded in `basesOf`).  In the degenerate case `d1 = 0` the loop body
never runs and Python returns the initial scalar `1.`; we model that scalar
broadcast as the all-ones matrix. -/
def forward2Full (cats : List ℕ) (ls : List ℝ) (x1 x2 : List (List ℕ)) :
    Option (List (List ℝ)) :=
  if x2 = [] ∨ dlast x1 ≤ dlast x2 then
    (basesOf cats ls (dlast x1)).map fun bs =>
      x1.map fun a => x2.map fun b => entryK bs a b
  else none

/-- The `diag=True` branch of `forward` for rank-2 inputs.  The loop body
indexes the inequality tensor `(x1[..., i] != x2[..., i])` — which has rank 1
for rank-2 inputs — with `[:, 0, ...]`, an index expression that needs at least
two dimensions.  Hence the first iteration of the loop always raises
(`IndexError` from that index, or `IndexError` from `self.cats[i]` /
`self.lengthscale[..., i]` when those are empty, or a broadcast `RuntimeError`
first when `n1 != n2`): the branch never produces a diagonal for rank-2
inputs.  With trailing dimension 0 the loop body never runs and the initial
scalar `1.` is returned. -/
def forward2Diag (cats : List ℕ) (ls : List ℝ) (x1 x2 : List (List ℕ)) :
    Option ℝ :=
  if dlast x1 = 0 then some 1 else none

/-- The `diag=False` branch of `forward` for rank-3 inputs `x1 : (b1, n1, d)`,
`x2 : (b2, n2, d)` (first notebook copy).  For such inputs
`x1[..., i].unsqueeze(-2)[..., None]` has shape `(b1, 1, n1, 1)` and
`x2[..., i].unsqueeze(-2)` has shape `(b2, 1, n2)`, so their broadcast
inequality has shape `(b1, b2, n1, n2)` with entry
`[a, m, j, k] = (x1[a, j, i] != x2[m, k, i])`; the leading `[0, ...]` index
then keeps only batch slice 0 of `x1`.  The result has shape `(b2, n1, n2)`
with entry `[m, j, k] = ∏ i, base_i ^ (x1[0, j, i] != x2[m, k, i])`.  (The
second notebook copy differs only in the loop bound, not in this indexing.) -/
def forward3Full (cats : List ℕ) (ls : List ℝ) (x1 x2 : List (List (List ℕ))) :
    Option (List (List (List ℝ))) :=
  (basesOf cats ls (dlast3 x1)).map fun bs =>
    x2.map fun x2m => (x1.headD []).map fun a => x2m.map fun b => entryK bs a b

/-- The error raised by `DiffusionKernel.__init__` when `categories is None`.
(The source spells the exception `RunTimeError`, a name that does not exist, so
the concrete Python exception is a `NameError` raised from the `raise`
statement — still an immediate, fatal error at construction time.) -/
inductive KernelInitError
  | missingCategories
deriving DecidableEq

/-- `DiffusionKernel.__init__`: raises if `categories is None`, otherwise
stores `self.cats = categories` before any evaluation can happen. -/
def initDiffusionKernel (categories : Option (List ℕ)) :
    Except KernelInitError (List ℕ) :=
  match categories with
  | none => Except.error KernelInitError.missingCategories
  | some c => Except.ok c

/-- Modelled from the spec: the kernel formula
`K(a, b) = Π_{i=0}^{d-1} sim_i(a[i], b[i])` with
`sim_i(a, b) = base_i ** indicator(a ≠ b)` and
`base_i = (1 - exp(-ℓ_i·c_i)) / (1 + (c_i - 1)·exp(-ℓ_i·c_i))`,
where `d = len(cats)`.  Used to compare the code's output against the spec. -/
def kernelSpec (cats : List ℕ) (ls : List ℝ) (a b : List ℕ) : ℝ :=
  ((List.range cats.length).map fun i =>
    baseFactor (cats.getD i 0) (ls.getD i 0) ^ neInd (a.getD i 0) (b.getD i 0)).prod

end

/-! ## Helper lemmas -/

/-- Indexing the list built by mapping over `List.range`. -/
theorem getD_map_range (f : ℕ → ℝ) {d i : ℕ} (h : i < d) (v : ℝ) :
    ((List.range d).map f).getD i v = f i := by
  rw [List.getD_eq_getElem?_getD, List.getElem?_map, List.getElem?_range h]
  rfl

/-- The accumulated product over the factors produced by the loop, written as a
product over the loop indices. -/
theorem entryK_basesList (cats : List ℕ) (ls : List ℝ) (d : ℕ) (a b : List ℕ) :
    entryK (basesList cats ls d) a b =
      ((List.range d).map fun i =>
        baseFactor (cats.getD i 0) (ls.getD i 0) ^ neInd (a.getD i 0) (b.getD i 0)).prod := by
  unfold entryK basesList
  rw [List.length_map, List.length_range]
  congr 1
  apply List.map_congr_left
  intro i hi
  rw [List.mem_range] at hi
  rw [getD_map_range _ hi]

/-- Comparing a point with itself: every exponent `a[i] != a[i]` is `0`, so the
accumulated product is `1` whatever the per-dimension factors are. -/
theorem entryK_self (bs : List ℝ) (a : List ℕ) : entryK bs a a = 1 := by
  unfold entryK
  have h : ∀ i ∈ List.range bs.length,
      bs.getD i 1 ^ neInd (a.getD i 0) (a.getD i 0) = 1 := by
    intro i _
    simp [neInd]
  rw [List.map_congr_left h]
  simp

/-- A product of list elements in `(0, 1]` is in `(0, 1]`. -/
theorem listProd_unit (L : List ℝ) (h : ∀ v ∈ L, 0 < v ∧ v ≤ 1) :
    0 < L.prod ∧ L.prod ≤ 1 := by
  induction L with
  | nil => simp
  | cons x t ih =>
    have hx := h x (by simp)
    have ht := ih (fun v hv => h v (by simp [hv]))
    constructor
    · simpa [List.prod_cons] using mul_pos hx.1 ht.1
    · rw [List.prod_cons]
      calc x * t.prod ≤ 1 * 1 := by
            apply mul_le_mul hx.2 ht.2 ht.1.le zero_le_one
        _ = 1 := by ring

/-- A product over `List.range`, as a `Finset.range` product. -/
theorem listRangeProd (f : ℕ → ℝ) (d : ℕ) :
    ((List.range d).map f).prod = ∏ i in Finset.range d, f i := by
  induction d with
  | zero => simp
  | succ n ih => rw [List.range_succ, List.map_append, List.prod_append,
      Finset.prod_range_succ, ih]; simp

/-- Strict comparison of two products of positive factors that agree except at
one index. -/
theorem prod_lt_prod_single {d i : ℕ} (hi : i ∈ Finset.range d) (f g : ℕ → ℝ)
    (hpos : ∀ j ∈ Finset.range d, 0 < f j)
    (heq : ∀ j ∈ Finset.range d, j ≠ i → f j = g j)
    (hlt : f i < g i) :
    ∏ j in Finset.range d, f j < ∏ j in Finset.range d, g j := by
  rw [← Finset.mul_prod_erase _ f hi, ← Finset.mul_prod_erase _ g hi]
  have hP : ∏ j in (Finset.range d).erase i, f j
      = ∏ j in (Finset.range d).erase i, g j := by
    apply Finset.prod_congr rfl
    intro j hj
    exact heq j (Finset.mem_of_mem_erase hj) (Finset.ne_of_mem_erase hj)
  rw [← hP]
  have hPpos : 0 < ∏ j in (Finset.range d).erase i, f j := by
    apply Finset.prod_pos
    intro j hj
    exact hpos j (Finset.mem_of_mem_erase hj)
  exact mul_lt_mul_of_pos_right hlt hPpos

/-- The exponential in `baseFactor` lies in `(0, 1)` for a positive lengthscale
and at least two categories. -/
theorem exp_neg_lc_mem (c : ℕ) (l : ℝ) (hc : 2 ≤ c) (hl : 0 < l) :
    0 < Real.exp (-l * c) ∧ Real.exp (-l * c) < 1 := by
  refine ⟨Real.exp_pos _, ?_⟩
  rw [Real.exp_lt_one_iff]
  have hcpos : (0 : ℝ) < c := by
    have h2 : (2 : ℝ) ≤ (c : ℝ) := by exact_mod_cast hc
    linarith
  nlinarith

/-- The per-dimension factor lies strictly between 0 and 1 when `ℓ > 0` and
`c ≥ 2`. -/
theorem baseFactor_pos_lt_one (c : ℕ) (l : ℝ) (hc : 2 ≤ c) (hl : 0 < l) :
    0 < baseFactor c l ∧ baseFactor c l < 1 := by
  obtain ⟨hq0, hq1⟩ := exp_neg_lc_mem c l hc hl
  have hcr : (2 : ℝ) ≤ (c : ℝ) := by exact_mod_cast hc
  unfold baseFactor
  set q := Real.exp (-l * c) with hq
  have hden : 0 < 1 + ((c : ℝ) - 1) * q := by nlinarith
  constructor
  · apply div_pos (by linarith) hden
  · rw [div_lt_one hden]
    nlinarith

/-- The per-dimension factor strictly increases in the lengthscale (the decay
exponential shrinks, the numerator grows and the denominator shrinks). -/
theorem baseFactor_strictMono (c : ℕ) (l l' : ℝ) (hc : 2 ≤ c) (hl : 0 < l)
    (hll : l < l') : baseFactor c l < baseFactor c l' := by
  have hcr : (2 : ℝ) ≤ (c : ℝ) := by exact_mod_cast hc
  have hq : Real.exp (-l' * c) < Real.exp (-l * c) := by
    apply Real.exp_lt_exp.mpr
    nlinarith
  obtain ⟨hq0, hq1⟩ := exp_neg_lc_mem c l hc hl
  obtain ⟨hq0', hq1'⟩ := exp_neg_lc_mem c l' hc (lt_trans hl hll)
  unfold baseFactor
  set p := Real.exp (-l * c)
  set p' := Real.exp (-l' * c)
  have hden : 0 < 1 + ((c : ℝ) - 1) * p := by nlinarith
  have hden' : 0 < 1 + ((c : ℝ) - 1) * p' := by nlinarith
  rw [div_lt_div_iff₀ hden hden']
  nlinarith

/-- Rational bounds on `exp 2`, from the 9-digit bounds on `exp 1`. -/
theorem exp_two_bounds : 7.38905 < Real.exp 2 ∧ Real.exp 2 < 7.38906 := by
  have he : Real.exp 2 = Real.exp 1 * Real.exp 1 := by
    rw [← Real.exp_add]; norm_num
  have h1 := Real.exp_one_gt_d9
  have h2 := Real.exp_one_lt_d9
  constructor <;> nlinarith

/-- Rational bounds on `exp (-2)`. -/
theorem exp_neg_two_bounds :
    0.135335 < Real.exp (-2) ∧ Real.exp (-2) < 0.135336 := by
  have he : Real.exp (-2) = (Real.exp 2)⁻¹ := by
    rw [← Real.exp_neg]
  obtain ⟨hl, hu⟩ := exp_two_bounds
  have hpos : 0 < Real.exp 2 := Real.exp_pos 2
  have hinv : Real.exp (-2) * Real.exp 2 = 1 := by
    rw [he]; field_simp
  constructor <;> nlinarith [Real.exp_pos (-2)]

/-- The factor for two categories at lengthscale 1, in closed form. -/
theorem baseFactor_2_1_eq :
    baseFactor 2 1 = (1 - Real.exp (-2)) / (1 + Real.exp (-2)) := by
  unfold baseFactor
  norm_num

/-- Numerical evaluation of the factor for `c = 2`, `ℓ = 1`: about 0.76159. -/
theorem baseFactor_2_1_bounds :
    0.76159 < baseFactor 2 1 ∧ baseFactor 2 1 < 0.76160 := by
  rw [baseFactor_2_1_eq]
  obtain ⟨hl, hu⟩ := exp_neg_two_bounds
  have hden : (0:ℝ) < 1 + Real.exp (-2) := by nlinarith
  constructor
  · rw [lt_div_iff₀ hden]; nlinarith
  · rw [div_lt_iff₀ hden]; nlinarith

/-- Numerical evaluation of its square: about 0.5800. -/
theorem baseFactor_2_1_sq_bounds :
    0.5800 < baseFactor 2 1 ^ 2 ∧ baseFactor 2 1 ^ 2 < 0.5801 := by
  obtain ⟨hl, hu⟩ := baseFactor_2_1_bounds
  constructor <;> nlinarith

/-! ## Claims -/

/-- C1: for every category vector `cats` with `d ≥ 1` entries `c_i ≥ 2`, every
lengthscale vector with `d` positive entries, and every pair of rank-2 point
batches with valid category indices and trailing dimension `d`,
`forward(x1, x2, diag=False)` returns the `n1 × n2` matrix whose `(j, k)` entry
is `∏ i < d, base_i ^ [x1[j][i] ≠ x2[k][i]]` — i.e. exactly the spec's
`K(x1[j], x2[k])`. -/
theorem c1_forward_matches_spec (cats : List ℕ) (ls : List ℝ)
    (x1 x2 : List (List ℕ))
    (hd : 1 ≤ cats.length)
    (hls : ls.length = cats.length)
    (hc : ∀ c ∈ cats, 2 ≤ c)
    (hlp : ∀ l ∈ ls, 0 < l)
    (hx1 : ∀ r ∈ x1, r.length = cats.length)
    (hx2 : ∀ r ∈ x2, r.length = cats.length)
    (hv1 : ∀ r ∈ x1, ∀ i, i < cats.length → r.getD i 0 < cats.getD i 0)
    (hv2 : ∀ r ∈ x2, ∀ i, i < cats.length → r.getD i 0 < cats.getD i 0) :
    forward2Full cats ls x1 x2 =
      some (x1.map fun a => x2.map fun b => kernelSpec cats ls a b) := by
  unfold forward2Full
  cases x1 with
  | nil =>
    simp [dlast, basesOf, basesList]
  | cons r t =>
    have hdl : dlast (r :: t) = cats.length := hx1 r (List.mem_cons_self r t)
    have hguard : x2 = [] ∨ dlast (r :: t) ≤ dlast x2 := by
      cases x2 with
      | nil => exact Or.inl rfl
      | cons s u =>
        refine Or.inr ?_
        have hs : dlast (s :: u) = cats.length := hx2 s (List.mem_cons_self s u)
        rw [hdl, hs]
    rw [if_pos hguard, hdl]
    have hbs : basesOf cats ls cats.length = some (basesList cats ls cats.length) := by
      unfold basesOf
      rw [if_pos ⟨le_refl _, le_of_eq hls.symm⟩]
    rw [hbs, Option.map_some']
    congr 1
    apply List.map_congr_left
    intro a _
    apply List.map_congr_left
    intro b _
    rw [entryK_basesList]
    rfl

/-- C1 witness: a concrete instance of the theorem. -/
theorem c1_witness :
    forward2Full [2, 2] [1, 1] [[0, 0]] [[0, 1]] =
      some [[kernelSpec [2, 2] [1, 1] [0, 0] [0, 1]]] := by
  exact c1_forward_matches_spec [2, 2] [1, 1] [[0, 0]] [[0, 1]]
    (by decide) (by rfl) (by decide)
    (by intro l hl; simp at hl; subst hl; norm_num)
    (by decide) (by decide) (by decide) (by decide)

/-- C2 (code bug): with rank-2 inputs of equal length `n = 2` over `d = 1`
dimension, `forward(x1, x2, diag=True)` does not return the paired diagonal of
the full matrix: the diag branch raises (`[:, 0, ...]` applied to the rank-1
inequality tensor is an `IndexError`), modelled as `none`, while the
`diag=False` matrix — whose paired diagonal `[1, 1]` the claim says diag mode
returns — is computed fine. -/
theorem c2_diag_branch_crashes :
    forward2Diag [3] [2] [[0], [2]] [[0], [2]] = none ∧
    forward2Full [3] [2] [[0], [2]] [[0], [2]] =
      some [[1, baseFactor 3 2], [baseFactor 3 2, 1]] := by
  constructor
  · simp [forward2Diag, dlast]
  · simp [forward2Full, dlast, basesOf, basesList, entryK, neInd, List.range_succ]

/-- C3 counterexample: the claim says `base = (1 - e^-2)/(1 + 1·e^-2) ≈ 0.4621`
for `cats = [2, 2]`, `lengthscale = [1.0, 1.0]`.  The code's factor for
`c = 2`, `ℓ = 1` is about `0.7616`, so even with a generous `±0.01` tolerance
the claimed numerical value is wrong (the claim's arithmetic corresponds to
`(1 - e^-1)/(1 + e^-1)`, not to its own formula). -/
theorem c3_counterexample : ¬ |baseFactor 2 1 - 0.4621| ≤ 0.01 := by
  obtain ⟨hl, _⟩ := baseFactor_2_1_bounds
  rw [abs_le]
  intro h
  linarith [h.2]

/-- C3 (amended): with `cats = [2, 2]`, `lengthscale = [1.0, 1.0]` and points
`a = [0,0]`, `b = [0,1]`, `c = [1,1]`, the kernel matrix over `[a, b, c]` has
`K(a,a) = 1.0` exactly, `K(a,b) = base ≈ 0.7616` (one differing dimension),
and `K(a,c) = base² ≈ 0.5800` (both dimensions differ), where
`base = (1 - e^-2)/(1 + 1·e^-2)`. -/
theorem c3_amended_scenario :
    forward2Full [2, 2] [1, 1] [[0, 0], [0, 1], [1, 1]] [[0, 0], [0, 1], [1, 1]] =
      some [[1, baseFactor 2 1, baseFactor 2 1 ^ 2],
            [baseFactor 2 1, 1, baseFactor 2 1],
            [baseFactor 2 1 ^ 2, baseFactor 2 1, 1]] ∧
    0.76159 < baseFactor 2 1 ∧ baseFactor 2 1 < 0.76160 ∧
    0.5800 < baseFactor 2 1 ^ 2 ∧ baseFactor 2 1 ^ 2 < 0.5801 := by
  refine ⟨?_, baseFactor_2_1_bounds.1, baseFactor_2_1_bounds.2,
    baseFactor_2_1_sq_bounds.1, baseFactor_2_1_sq_bounds.2⟩
  simp [forward2Full, dlast, basesOf, basesList, entryK, neInd, List.range_succ]
  ring_nf

/-- C8: constructing `DiffusionKernel` with `categories=None` raises
immediately at construction, before any evaluation is attempted.  (The
`raise RunTimeError(...)` statement misspells `RuntimeError`, so the concrete
Python exception is a `NameError`, but an error is raised at that point either
way; the embedding records it as the construction error.) -/
theorem c8_init_none_errors :
    initDiffusionKernel none = Except.error KernelInitError.missingCategories := rfl

/-- C4 counterexample: the claim says increasing a single lengthscale strictly
DECREASES `base_i` and the kernel value of a differing pair.  At `c = 2`,
raising the lengthscale from 1 to 2 strictly INCREASES both, so the claim is
false at this input. -/
theorem c4_counterexample :
    baseFactor 2 1 < baseFactor 2 2 ∧
    ¬ baseFactor 2 2 < baseFactor 2 1 ∧
    entryK (basesList [2] [1] 1) [0] [1] < entryK (basesList [2] [2] 1) [0] [1] := by
  have hb : baseFactor 2 1 < baseFactor 2 2 :=
    baseFactor_strictMono 2 1 2 (by norm_num) (by norm_num) (by norm_num)
  refine ⟨hb, not_lt_of_gt hb, ?_⟩
  simpa [basesList, entryK, neInd, List.range_succ] using hb

/-- C4 (amended): for fixed `cats` with every `c_i ≥ 2` and two positive
lengthscale vectors agreeing everywhere except in dimension `i`, where
`ℓ_i < ℓ_i'`: the per-dimension factor strictly INCREASES, hence the kernel
value of every pair differing in dimension `i` strictly increases, while the
kernel value of a point with itself is unchanged (it is 1 for both). -/
theorem c4_amended_monotone (cats : List ℕ) (ls ls' : List ℝ) (i : ℕ)
    (a b : List ℕ)
    (hi : i < cats.length)
    (hlen : ls.length = cats.length) (hlen' : ls'.length = cats.length)
    (hc : ∀ c ∈ cats, 2 ≤ c) (hp : ∀ l ∈ ls, 0 < l)
    (hagree : ∀ j, j ≠ i → ls'.getD j 0 = ls.getD j 0)
    (hlt : ls.getD i 0 < ls'.getD i 0)
    (hab : a.getD i 0 ≠ b.getD i 0) :
    baseFactor (cats.getD i 0) (ls.getD i 0) <
      baseFactor (cats.getD i 0) (ls'.getD i 0) ∧
    entryK (basesList cats ls cats.length) a b <
      entryK (basesList cats ls' cats.length) a b ∧
    entryK (basesList cats ls cats.length) a a =
      entryK (basesList cats ls' cats.length) a a := by
  have hcats_i : 2 ≤ cats.getD i 0 := by
    rw [List.getD_eq_getElem _ _ hi]
    exact hc _ (List.getElem_mem hi)
  have hls_mem : ∀ j, j < cats.length → 0 < ls.getD j 0 := by
    intro j hj
    have hj2 : j < ls.length := by omega
    rw [List.getD_eq_getElem _ _ hj2]
    exact hp _ (List.getElem_mem hj2)
  have hcats_j : ∀ j, j < cats.length → 2 ≤ cats.getD j 0 := by
    intro j hj
    rw [List.getD_eq_getElem _ _ hj]
    exact hc _ (List.getElem_mem hj)
  have hbase : baseFactor (cats.getD i 0) (ls.getD i 0) <
      baseFactor (cats.getD i 0) (ls'.getD i 0) :=
    baseFactor_strictMono _ _ _ hcats_i (hls_mem i hi) hlt
  refine ⟨hbase, ?_, ?_⟩
  · rw [entryK_basesList, entryK_basesList, listRangeProd, listRangeProd]
    apply prod_lt_prod_single (Finset.mem_range.mpr hi)
    · intro j hj
      rw [Finset.mem_range] at hj
      exact pow_pos (baseFactor_pos_lt_one _ _ (hcats_j j hj) (hls_mem j hj)).1 _
    · intro j _ hji
      rw [hagree j hji]
    · have hne : neInd (a.getD i 0) (b.getD i 0) = 1 := by
        unfold neInd
        rw [if_neg hab]
      rw [hne, pow_one, pow_one]
      exact hbase
  · rw [entryK_self, entryK_self]

/-- C4 witness: a concrete instance of the amended theorem, with
`cats = [2, 2]`, lengthscale `[1, 1]` against `[1, 2]` (dimension 1 raised),
and points `[0, 0]`, `[0, 1]` differing in dimension 1. -/
theorem c4_witness :
    baseFactor ([2, 2].getD 1 0) (([1, 1] : List ℝ).getD 1 0) <
      baseFactor ([2, 2].getD 1 0) (([1, 2] : List ℝ).getD 1 0) ∧
    entryK (basesList [2, 2] [1, 1] 2) [0, 0] [0, 1] <
      entryK (basesList [2, 2] [1, 2] 2) [0, 0] [0, 1] ∧
    entryK (basesList [2, 2] [1, 1] 2) [0, 0] [0, 0] =
      entryK (basesList [2, 2] [1, 2] 2) [0, 0] [0, 0] := by
  exact c4_amended_monotone [2, 2] [1, 1] [1, 2] 1 [0, 0] [0, 1]
    (by decide) (by rfl) (by rfl) (by decide)
    (by intro l hl; simp at hl; subst hl; norm_num)
    (by intro j hj
        match j with
        | 0 => rfl
        | 1 => exact absurd rfl hj
        | n + 2 => rfl)
    (by norm_num) (by decide)

/-- C5 counterexample: the claim also asserts that every entry of
`evaluate(x, x, diag=True)` equals 1.0; but for a rank-2 batch over `d ≥ 1`
dimensions the diag branch raises (`[:, 0, ...]` on a rank-1 tensor), modelled
as `none`, so it returns no entries at all. -/
theorem c5_counterexample :
    forward2Diag [2] [1] [[0], [1]] [[0], [1]] = none := by
  simp [forward2Diag, dlast]

/-- C5 (amended): for every rank-2 batch `x`, whenever
`evaluate(x, x, diag=False)` succeeds, each paired-diagonal entry `(k, k)` of
the result is exactly 1.0 (every not-equal indicator is 0).  The `diag=True`
clause of the claim is dropped: that branch raises an `IndexError` for rank-2
inputs with at least one dimension. -/
theorem c5_amended_diagonal_ones (cats : List ℕ) (ls : List ℝ)
    (x : List (List ℕ)) (M : List (List ℝ))
    (hM : forward2Full cats ls x x = some M) (k : ℕ) (hk : k < x.length) :
    (M.getD k []).getD k 0 = 1 := by
  unfold forward2Full at hM
  split at hM
  · cases hbs : basesOf cats ls (dlast x) with
    | none => rw [hbs] at hM; simp at hM
    | some bs =>
      rw [hbs, Option.map_some'] at hM
      have hMeq : M = x.map fun a => x.map fun b => entryK bs a b :=
        (Option.some.injEq _ _ ▸ hM).symm
      subst hMeq
      have hkm : k < (x.map fun a => x.map fun b => entryK bs a b).length := by
        simpa using hk
      rw [List.getD_eq_getElem _ _ hkm, List.getElem_map]
      have hkm2 : k < (x.map fun b => entryK bs (x[k]) b).length := by
        simpa using hk
      rw [List.getD_eq_getElem _ _ hkm2, List.getElem_map]
      exact entryK_self bs _
  · exact absurd hM (by simp)

/-- C5 witness: a concrete instance of the amended theorem at `k = 0`. -/
theorem c5_witness :
    ([[(1 : ℝ), baseFactor 3 1], [baseFactor 3 1, 1]].getD 0 []).getD 0 0 = 1 := by
  apply c5_amended_diagonal_ones [3] [1] [[0], [1]]
    [[(1 : ℝ), baseFactor 3 1], [baseFactor 3 1, 1]]
  · simp [forward2Full, dlast, basesOf, basesList, entryK, neInd, List.range_succ]
  · decide

/-- C6: for valid parameters (`c_i ≥ 2`, `ℓ_i > 0`), each per-dimension factor
`base_i` lies strictly between 0 and 1, and whenever `forward` (diag=False,
rank 2) succeeds, every entry of its output lies in the half-open interval
`(0, 1]`. -/
theorem c6_range (cats : List ℕ) (ls : List ℝ) (x1 x2 : List (List ℕ))
    (M : List (List ℝ))
    (hc : ∀ c ∈ cats, 2 ≤ c) (hl : ∀ l ∈ ls, 0 < l)
    (hM : forward2Full cats ls x1 x2 = some M) :
    (∀ i, i < cats.length → i < ls.length →
      0 < baseFactor (cats.getD i 0) (ls.getD i 0) ∧
        baseFactor (cats.getD i 0) (ls.getD i 0) < 1) ∧
    ∀ row ∈ M, ∀ v ∈ row, 0 < v ∧ v ≤ 1 := by
  have hbase : ∀ i, i < cats.length → i < ls.length →
      0 < baseFactor (cats.getD i 0) (ls.getD i 0) ∧
        baseFactor (cats.getD i 0) (ls.getD i 0) < 1 := by
    intro i hic hil
    apply baseFactor_pos_lt_one
    · rw [List.getD_eq_getElem _ _ hic]
      exact hc _ (List.getElem_mem hic)
    · rw [List.getD_eq_getElem _ _ hil]
      exact hl _ (List.getElem_mem hil)
  refine ⟨hbase, ?_⟩
  unfold forward2Full at hM
  split at hM
  · cases hbs : basesOf cats ls (dlast x1) with
    | none => rw [hbs] at hM; simp at hM
    | some bs =>
      rw [hbs, Option.map_some'] at hM
      have hMeq : M = x1.map fun a => x2.map fun b => entryK bs a b :=
        (Option.some.injEq _ _ ▸ hM).symm
      have hcond : dlast x1 ≤ cats.length ∧ dlast x1 ≤ ls.length ∧
          bs = basesList cats ls (dlast x1) := by
        unfold basesOf at hbs
        split at hbs
        · next hcl => exact ⟨hcl.1, hcl.2, (Option.some.injEq _ _ ▸ hbs).symm⟩
        · exact absurd hbs (by simp)
      obtain ⟨hdc, hdl, hbseq⟩ := hcond
      subst hMeq
      intro row hrow v hv
      rw [List.mem_map] at hrow
      obtain ⟨a, _, ha⟩ := hrow
      rw [← ha, List.mem_map] at hv
      obtain ⟨b, _, hb⟩ := hv
      rw [← hb, hbseq, entryK_basesList]
      apply listProd_unit
      intro w hw
      rw [List.mem_map] at hw
      obtain ⟨i, hi, hwi⟩ := hw
      rw [List.mem_range] at hi
      have hfac := hbase i (lt_of_lt_of_le hi hdc) (lt_of_lt_of_le hi hdl)
      rw [← hwi]
      constructor
      · exact pow_pos hfac.1 _
      · exact pow_le_one₀ hfac.1.le hfac.2.le
  · exact absurd hM (by simp)

/-- C6 witness: a concrete instance of the theorem with `cats = [2]`,
`lengthscale = [1]`, a one-point batch each, and output `[[base]]`. -/
theorem c6_witness :
    (∀ i, i < List.length [2] → i < List.length ([1] : List ℝ) →
      0 < baseFactor ([2].getD i 0) (([1] : List ℝ).getD i 0) ∧
        baseFactor ([2].getD i 0) (([1] : List ℝ).getD i 0) < 1) ∧
    ∀ row ∈ [[baseFactor 2 1]], ∀ v ∈ row, 0 < v ∧ v ≤ 1 := by
  apply c6_range [2] [1] [[0]] [[1]]
  · decide
  · intro l hl; simp at hl; subst hl; norm_num
  · simp [forward2Full, dlast, basesOf, basesList, entryK, neInd, List.range_succ]

/-- C7 counterexample: the claim says `evaluate` fails with a shape-mismatch
error WHENEVER the trailing dimension of `x1`/`x2` differs from `len(cats)`.
But with `cats = [3, 4]` (length 2) and inputs of trailing dimension 1 the
call succeeds and returns a full matrix: a smaller trailing dimension is
silently accepted, not rejected. -/
theorem c7_counterexample :
    forward2Full [3, 4] [1, 2] [[1]] [[1]] = some [[1]] := by
  simp [forward2Full, dlast, basesOf, basesList, entryK, neInd, List.range_succ]

/-- C7 (amended): `forward` (rank 2) raises only in one direction: it errors
when the trailing dimension of `x1` EXCEEDS the length of `cats` (or of the
lengthscale) — an `IndexError` from `self.cats[i]` / `self.lengthscale[..., i]`
— and every `diag=True` call with at least one dimension errors; a trailing
dimension smaller than `len(cats)` is accepted silently (see C10). -/
theorem c7_amended_errors (cats : List ℕ) (ls : List ℝ)
    (x1 x2 : List (List ℕ)) :
    ((cats.length < dlast x1 ∨ ls.length < dlast x1) →
      forward2Full cats ls x1 x2 = none) ∧
    (1 ≤ dlast x1 → forward2Diag cats ls x1 x2 = none) := by
  constructor
  · intro h
    unfold forward2Full
    split
    · have hbs : basesOf cats ls (dlast x1) = none := by
        unfold basesOf
        rw [if_neg]
        intro hcon
        rcases h with h | h
        · exact absurd hcon.1 (by omega)
        · exact absurd hcon.2 (by omega)
      rw [hbs]
      rfl
    · rfl
  · intro h
    unfold forward2Diag
    rw [if_neg]
    omega

/-- C7 witness: with `cats = [2]` and trailing dimension 3 both the full call
and the diag call error. -/
theorem c7_witness :
    forward2Full [2] [1, 1] [[0, 0, 0]] [[0, 0, 0]] = none ∧
    forward2Diag [2] [1, 1] [[0, 0, 0]] [[0, 0, 0]] = none := by
  refine ⟨(c7_amended_errors [2] [1, 1] [[0, 0, 0]] [[0, 0, 0]]).1 (Or.inl (by decide)),
    (c7_amended_errors [2] [1, 1] [[0, 0, 0]] [[0, 0, 0]]).2 (by decide)⟩

/-- C9: for rank-3 batched inputs, the full-matrix branch reads `x1` only
through its first batch slice `x1[0]`: any two calls whose `x1` arguments have
the same slice 0 (with identical `x2`, lengthscale and `cats`) return
identical outputs, because the pairwise inequality tensor is indexed with
`[0, ...]` before being used as the exponent. -/
theorem c9_first_batch_slice (cats : List ℕ) (ls : List ℝ)
    (x1 x1' x2 : List (List (List ℕ)))
    (hb : 2 ≤ x1.length) (hb' : 2 ≤ x1'.length)
    (hhead : x1.headD [] = x1'.headD []) :
    forward3Full cats ls x1 x2 = forward3Full cats ls x1' x2 := by
  unfold forward3Full dlast3
  rw [hhead]

/-- C9 witness: two batched inputs differing in batch slice 1 produce the same
output. -/
theorem c9_witness :
    forward3Full [2] [1] [[[0]], [[1]]] [[[1]], [[0]]] =
      forward3Full [2] [1] [[[0]], [[5]]] [[[1]], [[0]]] := by
  exact c9_first_batch_slice [2] [1] [[[0]], [[1]]] [[[0]], [[5]]] [[[1]], [[0]]]
    (by decide) (by decide) rfl

/-- Indexing a truncated list below the truncation point. -/
theorem getD_take_nat (l : List ℕ) {n i : ℕ} (h : i < n) (v : ℕ) :
    (l.take n).getD i v = l.getD i v := by
  rw [List.getD_eq_getElem?_getD, List.getD_eq_getElem?_getD,
    List.getElem?_take, if_pos h]

/-- Indexing a truncated list below the truncation point (real entries). -/
theorem getD_take_real (l : List ℝ) {n i : ℕ} (h : i < n) (v : ℝ) :
    (l.take n).getD i v = l.getD i v := by
  rw [List.getD_eq_getElem?_getD, List.getD_eq_getElem?_getD,
    List.getElem?_take, if_pos h]

/-- C10: when `x1` and `x2` share a trailing dimension `d'` with
`1 ≤ d' < len(cats)` and the lengthscale has at least `d'` entries, `forward`
(first notebook copy, diag=False) raises no error and returns the kernel
product over only the first `d'` dimensions — the spec kernel of the truncated
`cats` and lengthscale — because the loop bound is `x1.shape[-1]`, not
`len(cats)`. -/
theorem c10_truncated_product (cats : List ℕ) (ls : List ℝ)
    (x1 x2 : List (List ℕ))
    (h1 : 1 ≤ dlast x1) (h2 : dlast x1 < cats.length) (h3 : dlast x1 ≤ ls.length)
    (hdd : x2 = [] ∨ dlast x1 ≤ dlast x2)
    (hx1 : ∀ r ∈ x1, r.length = dlast x1) (hx2 : ∀ r ∈ x2, r.length = dlast x1) :
    forward2Full cats ls x1 x2 =
      some (x1.map fun a => x2.map fun b =>
        kernelSpec (cats.take (dlast x1)) (ls.take (dlast x1)) a b) := by
  unfold forward2Full
  rw [if_pos hdd]
  have hbs : basesOf cats ls (dlast x1) = some (basesList cats ls (dlast x1)) := by
    unfold basesOf
    rw [if_pos ⟨le_of_lt h2, h3⟩]
  rw [hbs, Option.map_some']
  congr 1
  apply List.map_congr_left
  intro a _
  apply List.map_congr_left
  intro b _
  rw [entryK_basesList]
  unfold kernelSpec
  rw [List.length_take, min_eq_left (le_of_lt h2)]
  congr 1
  apply List.map_congr_left
  intro i hi
  rw [List.mem_range] at hi
  rw [getD_take_nat cats hi, getD_take_real ls hi]

/-- C10 witness: `cats = [2, 3]` with trailing dimension 1 — the call succeeds
and computes the kernel of the truncated parameter vectors. -/
theorem c10_witness :
    forward2Full [2, 3] [1, 1] [[0]] [[1]] =
      some [[kernelSpec ([2, 3].take (dlast [[0]]))
        (([1, 1] : List ℝ).take (dlast [[0]])) [0] [1]]] := by
  exact c10_truncated_product [2, 3] [1, 1] [[0]] [[1]]
    (by decide) (by decide) (by decide) (Or.inr (by decide))
    (by decide) (by decide)
